import Mathlib

/-!
Verification of the dolt `querydiff` merge differ (`sort_node.go`,
`querydiff.go`) via a shallow embedding.

Rows are modelled as lists of nullable integer values (`Option Int`):
the engine's column comparator `typ.Compare` is instantiated with the
three-way integer comparison, and a sort field's column evaluator
(`sf.Column.Eval`) is instantiated with projection onto a column index,
failing exactly when the index is out of range.  The lookahead queue
(`iterQueue`, whose implementation is outside the sources at hand) is
modelled from the spec as the list of rows it has yet to deliver:
`isDone` is emptiness, `peek` the head, `pop` removes the head, and
`maybeStart` has no observable effect on the delivered contents.
Go's `nil` row is modelled as `none : Option Row`; a panic is modelled
as the `fatal` outcome carrying the panic message.
-/

/-- Errors surfaced by evaluation or by an iterator close. -/
inductive Err
  | evalOutOfRange (col rowLen : Nat)
  | external (code : Nat)
deriving DecidableEq, Repr

/-- A row: an ordered sequence of nullable scalar values. -/
abbrev Row := List (Option Int)

/-- Result of comparing two rows: the `rowCmp` constants of `sort_node.go`
(`lesser = -1`, `equal = 0`, `greater = 1`, `unknown = MaxInt32`). -/
inductive RowCmp
  | lesser
  | equal
  | greater
  | unknown
deriving DecidableEq, Repr

/-- Sort direction of a sort field (`plan.Ascending` / `plan.Descending`). -/
inductive SortOrder
  | ascending
  | descending
deriving DecidableEq, Repr

/-- Null-ordering policy of a sort field (`plan.NullsFirst` / `plan.NullsLast`). -/
inductive NullOrdering
  | nullsFirst
  | nullsLast
deriving DecidableEq, Repr

/-- A sort field `{columnEvaluator, direction, nullOrdering}`; the column
evaluator is modelled as projection onto the column index `col`. -/
structure SortField where
  col : Nat
  order : SortOrder
  nullOrdering : NullOrdering
deriving DecidableEq, Repr

/-- The three-way integer comparison, the `typ.Compare` instance used here;
it returns `-1`, `0` or `1` and never fails on integers. -/
def intCompare (a b : Int) : Int :=
  if a < b then -1 else if b < a then 1 else 0

/-- The Go conversion `rowCmp(cmp)` of a comparator result into a `rowCmp`. -/
def rcOfInt (c : Int) : RowCmp :=
  if c < 0 then RowCmp.lesser else if c = 0 then RowCmp.equal else RowCmp.greater

/-- Column evaluation `sf.Column.Eval(ctx, row)`: projection onto index
`c`, failing when the row is too short. -/
def evalCol (c : Nat) (r : Row) : Except Err (Option Int) :=
  if h : c < r.length then Except.ok (r.get ⟨c, h⟩)
  else Except.error (Err.evalOutOfRange c r.length)

/-- `sortNodeDiffer.rowCompare`: iterate the sort fields in order; evaluate
both rows; on `Descending` swap the operands before anything else; a null
on one side decides per the null-ordering policy; both null continues to
the next field; otherwise the comparator decides unless it ties.  Returns
the comparison together with an optional error, exactly as the Go function
returns `(rowCmp, error)` (an evaluation error yields `unknown`). -/
def rowCompare (sfs : List SortField) (left right : Row) : RowCmp × Option Err :=
  match sfs with
  | [] => (RowCmp.equal, none)
  | sf :: rest =>
    match evalCol sf.col left with
    | Except.error e => (RowCmp.unknown, some e)
    | Except.ok lv0 =>
      match evalCol sf.col right with
      | Except.error e => (RowCmp.unknown, some e)
      | Except.ok rv0 =>
        let p := if sf.order = SortOrder.descending then (rv0, lv0) else (lv0, rv0)
        match p.1, p.2 with
        | none, none => rowCompare rest left right
        | none, some _ =>
          (if sf.nullOrdering = NullOrdering.nullsFirst then RowCmp.lesser
           else RowCmp.greater, none)
        | some _, none =>
          (if sf.nullOrdering = NullOrdering.nullsFirst then RowCmp.greater
           else RowCmp.lesser, none)
        | some a, some b =>
          let cmp := intCompare a b
          if cmp = 0 then rowCompare rest left right else (rcOfInt cmp, none)

/-- State of a `sortNodeDiffer`: the two lookahead queues, modelled from the
spec as the lists of rows still to be delivered, plus the cross-call
comparison-state field `lastCmp`. -/
structure DifferState where
  fromRows : List Row
  toRows : List Row
  lastCmp : RowCmp
deriving DecidableEq, Repr

/-- Outcome of a single `nextFromRow` / `nextToRow` call: a row with `nil`
error, `io.EOF`, the internal `errSkip` retry signal, a genuine error, or a
panic (`fatal`). -/
inductive StepResult
  | row (r : Row)
  | eof
  | skip
  | err (e : Err)
  | fatal (msg : String)
deriving DecidableEq, Repr

/-- `sortNodeDiffer.nextFromRow`: end-of-stream when the from side is done;
unconditional pop when the to side is done; otherwise the comparison
protocol, with the out-of-order panic when `lastCmp` is stale. -/
def nextFromRow (sfs : List SortField) (s : DifferState) : StepResult × DifferState :=
  match s.fromRows with
  | [] => (StepResult.eof, s)
  | f :: fs =>
    match s.toRows with
    | [] => (StepResult.row f, { s with fromRows := fs })
    | t :: _ =>
      if s.lastCmp ≠ RowCmp.unknown then
        (StepResult.fatal "query diff iterators called out of order", s)
      else
        match rowCompare sfs f t with
        | (c, some e) => (StepResult.err e, { s with lastCmp := c })
        | (c, none) =>
          match c with
          | RowCmp.lesser =>
            (StepResult.row f, { s with fromRows := fs, lastCmp := RowCmp.lesser })
          | RowCmp.equal =>
            (StepResult.row f, { s with fromRows := fs, lastCmp := RowCmp.equal })
          | RowCmp.greater => (StepResult.skip, { s with lastCmp := RowCmp.greater })
          | RowCmp.unknown =>
            (StepResult.fatal "incorrect value fromIter rowCmp",
             { s with lastCmp := RowCmp.unknown })

/-- `sortNodeDiffer.nextToRow`: end-of-stream when the to side is done;
unconditional pop when the from side is done and no comparison is pending;
out-of-order panic when no comparison is pending but the from side is live;
otherwise consume the pending comparison and reset it to `unknown`. -/
def nextToRow (s : DifferState) : StepResult × DifferState :=
  match s.toRows with
  | [] => (StepResult.eof, s)
  | t :: ts =>
    if s.fromRows.isEmpty ∧ s.lastCmp = RowCmp.unknown then
      (StepResult.row t, { s with toRows := ts })
    else if s.lastCmp = RowCmp.unknown then
      (StepResult.fatal "query diff iterators called out of order", s)
    else
      match s.lastCmp with
      | RowCmp.lesser => (StepResult.skip, { s with lastCmp := RowCmp.unknown })
      | RowCmp.equal =>
        (StepResult.row t, { s with toRows := ts, lastCmp := RowCmp.unknown })
      | RowCmp.greater =>
        (StepResult.row t, { s with toRows := ts, lastCmp := RowCmp.unknown })
      | RowCmp.unknown =>
        (StepResult.fatal "incorrect value fromIter rowCmp",
         { s with lastCmp := RowCmp.unknown })

/-- The go-mysql-server `Row.Equals(other, schema)` used by `NextDiff`:
false on any length mismatch with the schema, otherwise elementwise value
equality (the integer comparator never fails). -/
def rowEquals (schLen : Nat) (r other : Row) : Bool :=
  if other.length ≠ r.length ∨ r.length ≠ schLen then false
  else r = other

/-- Equality check applied to the possibly-`nil` rows `NextDiff` holds
(`nil` has length 0, as a nil Go slice does). -/
def rowEqualsOpt (schLen : Nat) (r other : Option Row) : Bool :=
  rowEquals schLen (r.getD []) (other.getD [])

/-- Outcome of one `QueryDiffer.NextDiff` call: a (possibly one-sided) row
pair, end-of-stream, an error, a panic, or exhaustion of the fuel bound
(never reached with enough fuel). -/
inductive DiffOutcome
  | pair (f t : Option Row)
  | eof
  | err (e : Err)
  | fatal (msg : String)
  | noFuel
deriving DecidableEq, Repr

/-- The loop body of `QueryDiffer.NextDiff`: pull one row from each side,
propagate genuine errors, stop at double end-of-stream, discard equal
pairs and repeat, return the first differing pair.  `fromEOF` is the
sticky flag declared outside the Go loop. -/
def nextDiffAux (sfs : List SortField) (schLen : Nat) :
    Nat → Bool → DifferState → DiffOutcome × DifferState
  | 0, _, s => (DiffOutcome.noFuel, s)
  | fuel + 1, fromEOF, s =>
    let fr := nextFromRow sfs s
    match fr.1 with
    | StepResult.err e => (DiffOutcome.err e, fr.2)
    | StepResult.fatal m => (DiffOutcome.fatal m, fr.2)
    | _ =>
      let fromEOF2 := fromEOF || (fr.1 = StepResult.eof)
      let fromRow : Option Row :=
        match fr.1 with
        | StepResult.row r => some r
        | _ => none
      let tr := nextToRow fr.2
      match tr.1 with
      | StepResult.err e => (DiffOutcome.err e, tr.2)
      | StepResult.fatal m => (DiffOutcome.fatal m, tr.2)
      | _ =>
        let toRow : Option Row :=
          match tr.1 with
          | StepResult.row r => some r
          | _ => none
        if fromEOF2 ∧ tr.1 = StepResult.eof then (DiffOutcome.eof, tr.2)
        else if rowEqualsOpt schLen fromRow toRow then
          nextDiffAux sfs schLen fuel fromEOF2 tr.2
        else (DiffOutcome.pair fromRow toRow, tr.2)

/-- `QueryDiffer.NextDiff`, fuel-bounded. -/
def nextDiff (sfs : List SortField) (schLen : Nat) (s : DifferState) (fuel : Nat) :
    DiffOutcome × DifferState :=
  nextDiffAux sfs schLen fuel false s

/-- Which side a popped row came from. -/
inductive Side
  | fromSide
  | toSide
deriving DecidableEq, Repr

/-- Terminal outcome of driving the differ to completion. -/
inductive RunOutcome
  | finished
  | aborted (r : StepResult)
  | noFuel
deriving DecidableEq, Repr

/-- The full alternating call sequence of the merge protocol, as
`NextDiff` drives it: each round calls `nextFromRow` then `nextToRow`,
records every popped row with its side, stops at double end-of-stream and
aborts on any genuine error or panic. -/
def runDiffer (sfs : List SortField) :
    Nat → DifferState → List (Side × Row) × DifferState × RunOutcome
  | 0, s => ([], s, RunOutcome.noFuel)
  | fuel + 1, s =>
    let fr := nextFromRow sfs s
    match fr.1 with
    | StepResult.err e => ([], fr.2, RunOutcome.aborted (StepResult.err e))
    | StepResult.fatal m => ([], fr.2, RunOutcome.aborted (StepResult.fatal m))
    | _ =>
      let fromTrace : List (Side × Row) :=
        match fr.1 with
        | StepResult.row r => [(Side.fromSide, r)]
        | _ => []
      let tr := nextToRow fr.2
      match tr.1 with
      | StepResult.err e => (fromTrace, tr.2, RunOutcome.aborted (StepResult.err e))
      | StepResult.fatal m => (fromTrace, tr.2, RunOutcome.aborted (StepResult.fatal m))
      | _ =>
        let toTrace : List (Side × Row) :=
          match tr.1 with
          | StepResult.row r => [(Side.toSide, r)]
          | _ => []
        if fr.1 = StepResult.eof ∧ tr.1 = StepResult.eof then
          ([], tr.2, RunOutcome.finished)
        else
          let rest := runDiffer sfs fuel tr.2
          (fromTrace ++ toTrace ++ rest.1, rest.2.1, rest.2.2)

/-- Rows popped on the from side, in order. -/
def fromsOf (trace : List (Side × Row)) : List Row :=
  trace.filterMap fun e => if e.1 = Side.fromSide then some e.2 else none

/-- Rows popped on the to side, in order. -/
def tosOf (trace : List (Side × Row)) : List Row :=
  trace.filterMap fun e => if e.1 = Side.toSide then some e.2 else none

/-- A query plan node as the validation walk sees it: a sort operator, a
node with no children (`Children()` returns nil), or a node with at least
one child. -/
inductive PlanNode
  | sortNode (child : PlanNode)
  | leafNode
  | innerNode (first : PlanNode) (rest : List PlanNode)
deriving Repr

/-- `recursiveValidateQueryPlan`: accept at a sort node, reject at a
childless node, otherwise recurse into the first child. -/
def recursiveValidateQueryPlan : PlanNode → Option String
  | PlanNode.sortNode _ => none
  | PlanNode.leafNode => some "query plan does not contain a sort node"
  | PlanNode.innerNode c _ => recursiveValidateQueryPlan c

/-- Whether a sort operator is reachable by always descending into the
first child, regardless of how many children a node has — the walk the
code actually performs. -/
def sortOnFirstChildChain : PlanNode → Bool
  | PlanNode.sortNode _ => true
  | PlanNode.leafNode => false
  | PlanNode.innerNode c _ => sortOnFirstChildChain c

/-- Whether a sort operator is reachable by walking the single-child chain
from the root, the walk the spec describes: a node with more than one
child stops the walk. -/
def sortOnSingleChildChain : PlanNode → Bool
  | PlanNode.sortNode _ => true
  | PlanNode.leafNode => false
  | PlanNode.innerNode c [] => sortOnSingleChildChain c
  | PlanNode.innerNode _ (_ :: _) => false

/-- A record of which iterator closes `QueryDiffer.Close` performed. -/
inductive CloseCall
  | closeFrom
  | closeTo
deriving DecidableEq, Repr

/-- `QueryDiffer.Close`: close the from iterator, then the to iterator,
and return the from-side error if any, else the to-side error.  The two
arguments are the errors the respective `Close` calls report; the first
component records that both closes were performed, in order. -/
def queryDifferClose (fromCloseRes toCloseRes : Option Err) :
    List CloseCall × Option Err :=
  let fromErr := fromCloseRes
  let toErr := toCloseRes
  ([CloseCall.closeFrom, CloseCall.closeTo],
   match fromErr with
   | some e => some e
   | none => toErr)

/-- Modelled from the spec: the close-relevant state of a `sortNodeDiffer` —
one closed flag per lookahead queue (`iterQueue.close` is outside the
sources at hand; per the spec it stops fetching and releases the wrapped
iterator) plus the session-shared aggregated error holder `ae`. -/
structure CloseModel where
  fromQueueClosed : Bool
  toQueueClosed : Bool
  sharedErr : Option Err
deriving DecidableEq, Repr

/-- `sortNodeDiffer.close`: close both queues, return `ae.Get()`. -/
def sortNodeDifferClose (m : CloseModel) : Option Err × CloseModel :=
  let m1 := { m with fromQueueClosed := true }
  let m2 := { m1 with toQueueClosed := true }
  (m2.sharedErr, m2)

/-- The `close` function of the iterator `makeFromNode` builds:
`return nil`, touching nothing. -/
def makeFromNodeClose (m : CloseModel) : Option Err × CloseModel :=
  (none, m)

/-- The `close` function of the iterator `makeToNode` builds: it calls
`nd.close()`. -/
def makeToNodeClose (m : CloseModel) : Option Err × CloseModel :=
  sortNodeDifferClose m

/-! Key encodings: each sort field maps a row's evaluated column value to a
two-integer key so that `rowCompare` coincides with the lexicographic
integer comparison of the concatenated keys.  Null placement is folded
into the first entry and the descending swap into negation. -/

/-- Two-integer key of one column value under a sort field's direction and
null-ordering policy. -/
def colKey (sf : SortField) (v : Option Int) : List Int :=
  let base : List Int :=
    match v with
    | none => [if sf.nullOrdering = NullOrdering.nullsFirst then 0 else 2, 0]
    | some a => [1, a]
  if sf.order = SortOrder.descending then base.map (fun x => -x) else base

/-- Value a sort field evaluates on a row, total form (agrees with
`evalCol` whenever the column is in range). -/
def keyVal (sf : SortField) (r : Row) : Option Int :=
  r.getD sf.col none

/-- The effective comparison key of a row under a sort-key spec. -/
def key (sfs : List SortField) (r : Row) : List Int :=
  sfs.flatMap fun sf => colKey sf (keyVal sf r)

/-- Lexicographic three-way comparison of integer lists (first nonzero
entrywise comparison wins; meant for equal-length lists). -/
def lexCmp : List Int → List Int → Int
  | a :: as, b :: bs => if intCompare a b = 0 then lexCmp as bs else intCompare a b
  | _, _ => 0

/-- Row `a` is at most row `b` in the effective comparison key order. -/
def keyLE (sfs : List SortField) (a b : Row) : Prop :=
  lexCmp (key sfs a) (key sfs b) ≤ 0

instance (sfs : List SortField) (a b : Row) : Decidable (keyLE sfs a b) := by
  unfold keyLE; infer_instance

theorem intCompare_self (a : Int) : intCompare a a = 0 := by
  simp [intCompare]

theorem intCompare_eq_zero {a b : Int} : intCompare a b = 0 ↔ a = b := by
  unfold intCompare
  split_ifs <;> constructor <;> intro h <;> first | exact h.elim | omega

theorem intCompare_le_zero {a b : Int} : intCompare a b ≤ 0 ↔ a ≤ b := by
  unfold intCompare
  split_ifs <;> constructor <;> intro h <;> first | exact h.elim | omega

theorem intCompare_swap (a b : Int) : intCompare b a = -intCompare a b := by
  unfold intCompare
  split_ifs <;> omega

theorem intCompare_neg_neg (a b : Int) : intCompare (-a) (-b) = intCompare b a := by
  unfold intCompare
  split_ifs <;> omega

theorem lexCmp_nil : lexCmp [] [] = 0 := rfl

theorem lexCmp_cons (a b : Int) (as bs : List Int) :
    lexCmp (a :: as) (b :: bs) =
      if intCompare a b = 0 then lexCmp as bs else intCompare a b := rfl

theorem lexCmp_self (as : List Int) : lexCmp as as = 0 := by
  induction as with
  | nil => rfl
  | cons a as ih => simp [lexCmp_cons, intCompare_self, ih]

theorem lexCmp_swap (as bs : List Int) : lexCmp bs as = -lexCmp as bs := by
  induction as generalizing bs with
  | nil => cases bs <;> simp [lexCmp]
  | cons a as ih =>
    cases bs with
    | nil => simp [lexCmp]
    | cons b bs =>
      have hba : intCompare b a = -intCompare a b := intCompare_swap a b
      by_cases h : intCompare a b = 0
      · simp [lexCmp_cons, h, hba, ih]
      · have hba0 : intCompare b a ≠ 0 := by
          rw [hba]
          exact neg_ne_zero.mpr h
        simp [lexCmp_cons, h, hba0, hba]

theorem lexCmp_eq_zero {as bs : List Int} (hlen : as.length = bs.length)
    (h : lexCmp as bs = 0) : as = bs := by
  induction as generalizing bs with
  | nil =>
    cases bs with
    | nil => rfl
    | cons b bs => simp at hlen
  | cons a as ih =>
    cases bs with
    | nil => simp at hlen
    | cons b bs =>
      simp only [List.length_cons] at hlen
      rw [lexCmp_cons] at h
      by_cases hc : intCompare a b = 0
      · rw [if_pos hc] at h
        have hab : a = b := intCompare_eq_zero.mp hc
        have : as = bs := ih (by omega) h
        simp [hab, this]
      · rw [if_neg hc] at h
        exact absurd h hc

theorem lexCmp_trans {as bs cs : List Int} (h1 : as.length = bs.length)
    (h2 : bs.length = cs.length) (hab : lexCmp as bs ≤ 0) (hbc : lexCmp bs cs ≤ 0) :
    lexCmp as cs ≤ 0 := by
  induction as generalizing bs cs with
  | nil =>
    cases bs with
    | nil =>
      cases cs with
      | nil => simp [lexCmp]
      | cons c cs => simp at h2
    | cons b bs => simp at h1
  | cons a as ih =>
    cases bs with
    | nil => simp at h1
    | cons b bs =>
      cases cs with
      | nil => simp at h2
      | cons c cs =>
        simp only [List.length_cons] at h1 h2
        rw [lexCmp_cons] at hab hbc ⊢
        by_cases hab0 : intCompare a b = 0
        · have hA : a = b := intCompare_eq_zero.mp hab0
          rw [if_pos hab0] at hab
          subst hA
          by_cases hbc0 : intCompare a c = 0
          · rw [if_pos hbc0] at hbc ⊢
            exact ih (by omega) (by omega) hab hbc
          · rw [if_neg hbc0] at hbc ⊢
            exact hbc
        · rw [if_neg hab0] at hab
          have haltb : a < b := by
            have h3 := intCompare_le_zero.mp hab
            have h4 : a ≠ b := fun he => hab0 (intCompare_eq_zero.mpr he)
            omega
          by_cases hbc0 : intCompare b c = 0
          · have hB : b = c := intCompare_eq_zero.mp hbc0
            subst hB
            rw [if_neg hab0]
            exact hab
          · rw [if_neg hbc0] at hbc
            have hbltc : b < c := by
              have h3 := intCompare_le_zero.mp hbc
              have h4 : b ≠ c := fun he => hbc0 (intCompare_eq_zero.mpr he)
              omega
            have hac : intCompare a c ≠ 0 := fun he => by
              have := intCompare_eq_zero.mp he
              omega
            rw [if_neg hac]
            rw [intCompare_le_zero]
            omega

theorem lexCmp_append {xs ys : List Int} (h : xs.length = ys.length) (as bs : List Int) :
    lexCmp (xs ++ as) (ys ++ bs) =
      if lexCmp xs ys = 0 then lexCmp as bs else lexCmp xs ys := by
  induction xs generalizing ys with
  | nil =>
    cases ys with
    | nil => simp [lexCmp]
    | cons y ys => simp at h
  | cons x xs ih =>
    cases ys with
    | nil => simp at h
    | cons y ys =>
      simp only [List.length_cons] at h
      simp only [List.cons_append, lexCmp_cons]
      by_cases hc : intCompare x y = 0
      · simp only [if_pos hc]
        exact ih (by omega) 
      · simp [hc]

theorem colKey_length (sf : SortField) (v : Option Int) : (colKey sf v).length = 2 := by
  cases v <;> simp [colKey] <;> split_ifs <;> simp

theorem key_cons (sf : SortField) (rest : List SortField) (r : Row) :
    key (sf :: rest) r = colKey sf (keyVal sf r) ++ key rest r := by
  simp [key]

theorem key_length (sfs : List SortField) (r : Row) :
    (key sfs r).length = 2 * sfs.length := by
  induction sfs with
  | nil => simp [key]
  | cons sf rest ih =>
    rw [key_cons]
    simp [colKey_length, ih]
    omega

theorem evalCol_ok {c : Nat} {r : Row} (h : c < r.length) :
    evalCol c r = Except.ok (r.getD c none) := by
  unfold evalCol
  rw [dif_pos h]
  congr 1
  rw [List.getD_eq_getElem?_getD, List.getElem?_eq_getElem h]
  rfl

theorem evalCol_keyVal {sf : SortField} {r : Row} (h : sf.col < r.length) :
    evalCol sf.col r = Except.ok (keyVal sf r) := evalCol_ok h

theorem colKey_lex (sf : SortField) (vl vr : Option Int) :
    lexCmp (colKey sf vl) (colKey sf vr) =
      (match (if sf.order = SortOrder.descending then (vr, vl) else (vl, vr)) with
       | (none, none) => 0
       | (none, some _) =>
         if sf.nullOrdering = NullOrdering.nullsFirst then -1 else 1
       | (some _, none) =>
         if sf.nullOrdering = NullOrdering.nullsFirst then 1 else -1
       | (some a, some b) => intCompare a b) := by
  cases ho : sf.order <;> cases hno : sf.nullOrdering <;> cases vl <;> cases vr <;>
    simp [colKey, ho, hno, lexCmp_cons, lexCmp_nil, intCompare] <;>
    split_ifs <;> intros <;> first | assumption | omega

theorem rowCompare_cons (sf : SortField) (rest : List SortField) (l r : Row)
    (hcl : sf.col < l.length) (hcr : sf.col < r.length) :
    rowCompare (sf :: rest) l r =
      (if lexCmp (colKey sf (keyVal sf l)) (colKey sf (keyVal sf r)) = 0 then
        rowCompare rest l r
       else
        (rcOfInt (lexCmp (colKey sf (keyVal sf l)) (colKey sf (keyVal sf r))),
         none)) := by
  rw [colKey_lex]
  conv_lhs => rw [rowCompare.eq_def]
  simp only [evalCol_keyVal hcl, evalCol_keyVal hcr]
  cases ho : sf.order <;> cases hno : sf.nullOrdering <;>
    cases hvl : keyVal sf l <;> cases hvr : keyVal sf r <;>
    simp [ho, hno, rcOfInt]

theorem rcOfInt_zero : rcOfInt 0 = RowCmp.equal := by
  norm_num [rcOfInt]

/-- Under in-range evaluation `rowCompare` is exactly the lexicographic
comparison of the two effective keys, converted by the `rowCmp(...)` cast,
with no error. -/
theorem rowCompare_eq_key (sfs : List SortField) (l r : Row)
    (hl : ∀ sf ∈ sfs, sf.col < l.length) (hr : ∀ sf ∈ sfs, sf.col < r.length) :
    rowCompare sfs l r = (rcOfInt (lexCmp (key sfs l) (key sfs r)), none) := by
  induction sfs with
  | nil => simp [rowCompare, key, lexCmp, rcOfInt_zero]
  | cons sf rest ih =>
    have hcl : sf.col < l.length := hl sf (List.mem_cons_self sf rest)
    have hcr : sf.col < r.length := hr sf (List.mem_cons_self sf rest)
    have ihr := ih (fun x hx => hl x (List.mem_cons_of_mem sf hx))
      (fun x hx => hr x (List.mem_cons_of_mem sf hx))
    rw [rowCompare_cons sf rest l r hcl hcr, key_cons, key_cons,
      lexCmp_append (by rw [colKey_length, colKey_length]) _ _]
    by_cases hpc : lexCmp (colKey sf (keyVal sf l)) (colKey sf (keyVal sf r)) = 0
    · simp [hpc, ihr]
    · simp [hpc]

/-- C4: `nextFromRow` reports end-of-stream when the from side is
exhausted; pops and returns the next from-row unconditionally when only
the to side is exhausted; and otherwise (protocol state `unknown`, both
peeks comparable without error) stores the comparison result, popping and
returning the from-row on `lesser` or `equal` and signalling the non-error
retry outcome with both queues untouched on `greater`. -/
theorem c4_nextFromRow_cases (sfs : List SortField) (s : DifferState) :
    (s.fromRows = [] → nextFromRow sfs s = (StepResult.eof, s)) ∧
    (∀ f fs, s.fromRows = f :: fs → s.toRows = [] →
      nextFromRow sfs s = (StepResult.row f, { s with fromRows := fs })) ∧
    (∀ f fs t ts c, s.fromRows = f :: fs → s.toRows = t :: ts →
      s.lastCmp = RowCmp.unknown → rowCompare sfs f t = (c, none) →
      ((nextFromRow sfs s).2.lastCmp = c) ∧
      ((c = RowCmp.lesser ∨ c = RowCmp.equal) →
        nextFromRow sfs s =
          (StepResult.row f, { s with fromRows := fs, lastCmp := c })) ∧
      (c = RowCmp.greater →
        nextFromRow sfs s =
          (StepResult.skip, { s with lastCmp := RowCmp.greater }))) := by
  refine ⟨?_, ?_, ?_⟩
  · intro hf
    simp [nextFromRow, hf]
  · intro f fs hf ht
    simp [nextFromRow, hf, ht]
  · intro f fs t ts c hf ht hl hc
    cases c <;>
      simp [nextFromRow, hf, ht, hl, hc]

/-- Witness for C4 at concrete inputs: streams `[[1]]` and `[[2]]` on one
ascending column compare `lesser`, so the from-row is popped. -/
theorem c4_witness :
    nextFromRow [⟨0, SortOrder.ascending, NullOrdering.nullsFirst⟩]
        ⟨[[some 1]], [[some 2]], RowCmp.unknown⟩ =
      (StepResult.row [some 1], ⟨[], [[some 2]], RowCmp.lesser⟩) := by
  have h := (c4_nextFromRow_cases
    [⟨0, SortOrder.ascending, NullOrdering.nullsFirst⟩]
    ⟨[[some 1]], [[some 2]], RowCmp.unknown⟩).2.2
    [some 1] [] [some 2] [] RowCmp.lesser rfl rfl rfl (by decide)
  exact h.2.1 (Or.inl rfl)

theorem rcOfInt_ne_unknown (x : Int) : rcOfInt x ≠ RowCmp.unknown := by
  unfold rcOfInt
  split_ifs <;> simp

theorem rowCompare_ok_ne_unknown {sfs : List SortField} {l r : Row} {c : RowCmp}
    (h : rowCompare sfs l r = (c, none)) : c ≠ RowCmp.unknown := by
  induction sfs with
  | nil =>
    simp [rowCompare] at h
    simp [← h]
  | cons sf rest ih =>
    unfold rowCompare at h
    split at h
    · simp at h
    · split at h
      · simp at h
      · split at h <;> simp only [] at h <;>
          (try split at h) <;>
          (try split_ifs at h) <;>
          first
          | exact ih h
          | (rw [← h]; simp)
          | (simp at h
             first
             | (rw [← h]; exact rcOfInt_ne_unknown _)
             | (rw [h]; exact rcOfInt_ne_unknown _)
             | (rw [← h]; simp)
             | (rw [h]; simp))
          | (simp_all; done)

/-- C5: while both sides still hold rows, a second consecutive
`nextFromRow` (after a `nextFromRow` that compared without error) panics
with the out-of-order message and changes nothing, and a `nextToRow`
issued with comparison state `unknown` while the from side is live
likewise panics; neither violation yields a row, a retry signal or a
recoverable error. -/
theorem c5_out_of_order (sfs : List SortField) (s : DifferState) :
    (∀ f fs t ts c, s.fromRows = f :: fs → s.toRows = t :: ts →
      s.lastCmp = RowCmp.unknown → rowCompare sfs f t = (c, none) →
      (nextFromRow sfs s).2.fromRows ≠ [] →
      nextFromRow sfs (nextFromRow sfs s).2 =
        (StepResult.fatal "query diff iterators called out of order",
         (nextFromRow sfs s).2)) ∧
    (s.fromRows ≠ [] → s.toRows ≠ [] → s.lastCmp = RowCmp.unknown →
      nextToRow s =
        (StepResult.fatal "query diff iterators called out of order", s)) := by
  constructor
  · intro f fs t ts c hf ht hl hc hne
    have hcu : c ≠ RowCmp.unknown := rowCompare_ok_ne_unknown hc
    cases c with
    | unknown => exact absurd rfl hcu
    | lesser =>
      rw [show nextFromRow sfs s =
          (StepResult.row f, { s with fromRows := fs, lastCmp := RowCmp.lesser })
        from by simp [nextFromRow, hf, ht, hl, hc]] at hne ⊢
      simp only [] at hne ⊢
      cases fs with
      | nil => exact absurd rfl hne
      | cons f2 fs2 => simp [nextFromRow, ht]
    | equal =>
      rw [show nextFromRow sfs s =
          (StepResult.row f, { s with fromRows := fs, lastCmp := RowCmp.equal })
        from by simp [nextFromRow, hf, ht, hl, hc]] at hne ⊢
      simp only [] at hne ⊢
      cases fs with
      | nil => exact absurd rfl hne
      | cons f2 fs2 => simp [nextFromRow, ht]
    | greater =>
      rw [show nextFromRow sfs s =
          (StepResult.skip, { s with lastCmp := RowCmp.greater })
        from by simp [nextFromRow, hf, ht, hl, hc]] at hne ⊢
      simp [nextFromRow, hf, ht]
  · intro hf ht hl
    cases hts : s.toRows with
    | nil => exact absurd hts ht
    | cons t ts =>
      have hfe : s.fromRows.isEmpty = false := by
        cases hfs : s.fromRows with
        | nil => exact absurd hfs hf
        | cons f fs => simp
      simp [nextToRow, hts, hfe, hl]

/-- Witness for C5: concrete single-column streams where the first
from-side pull compares `lesser`; the immediate second from-side pull
panics, as does an initial to-side pull. -/
theorem c5_witness :
    nextFromRow [⟨0, SortOrder.ascending, NullOrdering.nullsFirst⟩]
        (nextFromRow [⟨0, SortOrder.ascending, NullOrdering.nullsFirst⟩]
          ⟨[[some 1], [some 3]], [[some 2]], RowCmp.unknown⟩).2 =
      (StepResult.fatal "query diff iterators called out of order",
       ⟨[[some 3]], [[some 2]], RowCmp.lesser⟩) ∧
    nextToRow ⟨[[some 1], [some 3]], [[some 2]], RowCmp.unknown⟩ =
      (StepResult.fatal "query diff iterators called out of order",
       ⟨[[some 1], [some 3]], [[some 2]], RowCmp.unknown⟩) := by
  have h := c5_out_of_order [⟨0, SortOrder.ascending, NullOrdering.nullsFirst⟩]
    ⟨[[some 1], [some 3]], [[some 2]], RowCmp.unknown⟩
  constructor
  · have h1 := h.1 [some 1] [[some 3]] [some 2] [] RowCmp.lesser rfl rfl rfl
      (by decide) (by decide)
    rw [h1]
    decide
  · exact h.2 (by decide) (by decide) rfl

/-- C7: the comparison-state protocol — a `nextFromRow` that compares
(both sides live, state `unknown`, comparison error-free) leaves the state
set to the result; `nextFromRow` never consumes a set state (it leaves
`lastCmp` untouched whenever it was set); and any `nextToRow` issued while
the to side still has rows returns with the state reset to `unknown`, in
particular the one that consumes a set state. -/
theorem c7_state_alternation (sfs : List SortField) (s : DifferState) :
    (∀ f fs t ts c, s.fromRows = f :: fs → s.toRows = t :: ts →
      s.lastCmp = RowCmp.unknown → rowCompare sfs f t = (c, none) →
      (nextFromRow sfs s).2.lastCmp = c) ∧
    (s.lastCmp ≠ RowCmp.unknown →
      (nextFromRow sfs s).2.lastCmp = s.lastCmp) ∧
    (s.toRows ≠ [] →
      (nextToRow s).2.lastCmp = RowCmp.unknown) := by
  refine ⟨?_, ?_, ?_⟩
  · intro f fs t ts c hf ht hl hc
    cases c <;> simp [nextFromRow, hf, ht, hl, hc]
  · intro hl
    cases hf : s.fromRows with
    | nil => simp [nextFromRow, hf]
    | cons f fs =>
      cases ht : s.toRows with
      | nil => simp [nextFromRow, hf, ht]
      | cons t ts => simp [nextFromRow, hf, ht, hl]
  · intro ht
    cases hts : s.toRows with
    | nil => exact absurd hts ht
    | cons t ts =>
      by_cases hu : s.lastCmp = RowCmp.unknown
      · by_cases hfe : s.fromRows.isEmpty
        · simp [nextToRow, hts, hfe, hu]
        · simp only [nextToRow, hts]
          rw [if_neg (by simp [hfe]), if_pos hu]
          exact hu
      · cases hc : s.lastCmp <;>
          simp_all [nextToRow, hts]

/-- Witness for C7 at a concrete state: producing then consuming one
comparison result. -/
theorem c7_witness :
    (nextFromRow [⟨0, SortOrder.ascending, NullOrdering.nullsFirst⟩]
      ⟨[[some 1]], [[some 2]], RowCmp.unknown⟩).2.lastCmp = RowCmp.lesser ∧
    (nextFromRow [⟨0, SortOrder.ascending, NullOrdering.nullsFirst⟩]
      ⟨[[some 1]], [[some 2]], RowCmp.lesser⟩).2.lastCmp = RowCmp.lesser ∧
    (nextToRow ⟨[], [[some 2]], RowCmp.lesser⟩).2.lastCmp = RowCmp.unknown := by
  refine ⟨?_, ?_, ?_⟩
  · exact (c7_state_alternation [⟨0, SortOrder.ascending, NullOrdering.nullsFirst⟩]
      ⟨[[some 1]], [[some 2]], RowCmp.unknown⟩).1 [some 1] [] [some 2] []
      RowCmp.lesser rfl rfl rfl (by decide)
  · exact (c7_state_alternation [⟨0, SortOrder.ascending, NullOrdering.nullsFirst⟩]
      ⟨[[some 1]], [[some 2]], RowCmp.lesser⟩).2.1 (by decide)
  · exact (c7_state_alternation [⟨0, SortOrder.ascending, NullOrdering.nullsFirst⟩]
      ⟨[], [[some 2]], RowCmp.lesser⟩).2.2 (by decide)

/-- C9: `QueryDiffer.Close` closes both sides' iterators on every call,
and returns the from-side close error whenever there is one (in
particular when both closes fail), surfacing the to-side error only when
the from-side close succeeded. -/
theorem c9_close_tiebreak (fromCloseRes toCloseRes : Option Err) :
    (queryDifferClose fromCloseRes toCloseRes).1 =
      [CloseCall.closeFrom, CloseCall.closeTo] ∧
    (∀ e, fromCloseRes = some e → (queryDifferClose fromCloseRes toCloseRes).2 = some e) ∧
    (fromCloseRes = none → (queryDifferClose fromCloseRes toCloseRes).2 = toCloseRes) := by
  refine ⟨rfl, ?_, ?_⟩
  · intro e he
    simp [queryDifferClose, he]
  · intro he
    simp [queryDifferClose, he]

/-- Witness for C9: both sides fail — the from-side error is returned. -/
theorem c9_witness :
    (queryDifferClose (some (Err.external 1)) (some (Err.external 2))).2 =
      some (Err.external 1) ∧
    (queryDifferClose none (some (Err.external 2))).2 = some (Err.external 2) := by
  constructor
  · exact (c9_close_tiebreak (some (Err.external 1)) (some (Err.external 2))).2.1
      (Err.external 1) rfl
  · exact (c9_close_tiebreak none (some (Err.external 2))).2.2 rfl

/-- C10: the from-side synthetic node's iterator close returns `nil` and
performs no teardown at all, while the to-side synthetic node's iterator
close performs the whole teardown: both lookahead queues are closed and
the shared aggregated error is surfaced. -/
theorem c10_close_split (m : CloseModel) :
    makeFromNodeClose m = (none, m) ∧
    makeToNodeClose m =
      (m.sharedErr, { m with fromQueueClosed := true, toQueueClosed := true }) := by
  exact ⟨rfl, rfl⟩

/-- C8 counterexample: a multi-child root whose first child is a sort
operator.  The sort is reachable only through a multi-child operator, so
per the claim validation must reject the plan; `recursiveValidateQueryPlan`
accepts it (it always walks into `Children()[0]`, regardless of arity). -/
theorem c8_counterexample :
    recursiveValidateQueryPlan
        (PlanNode.innerNode (PlanNode.sortNode PlanNode.leafNode)
          [PlanNode.leafNode]) = none ∧
    sortOnSingleChildChain
        (PlanNode.innerNode (PlanNode.sortNode PlanNode.leafNode)
          [PlanNode.leafNode]) = false := ⟨rfl, rfl⟩

/-- C8 amended: plan validation accepts a plan exactly when a sort
operator is reachable by walking the chain of first children from the
root (descending into `Children()[0]` of any node that has children,
regardless of how many); otherwise it rejects with the
"query plan does not contain a sort node" setup error. -/
theorem c8_validate_first_child_chain : ∀ p : PlanNode,
    (recursiveValidateQueryPlan p = none ↔ sortOnFirstChildChain p = true) ∧
    (sortOnFirstChildChain p = false →
      recursiveValidateQueryPlan p =
        some "query plan does not contain a sort node")
  | PlanNode.sortNode c => by
    simp [recursiveValidateQueryPlan, sortOnFirstChildChain]
  | PlanNode.leafNode => by
    simp [recursiveValidateQueryPlan, sortOnFirstChildChain]
  | PlanNode.innerNode c rest => by
    have ihc := c8_validate_first_child_chain c
    simpa [recursiveValidateQueryPlan, sortOnFirstChildChain] using ihc

/-- Witness for C8 amended: a chain through a single-child node to a sort
is accepted; a childless root is rejected with the setup error. -/
theorem c8_witness :
    recursiveValidateQueryPlan
        (PlanNode.innerNode (PlanNode.sortNode PlanNode.leafNode) []) = none ∧
    recursiveValidateQueryPlan PlanNode.leafNode =
      some "query plan does not contain a sort node" := by
  constructor
  · exact (c8_validate_first_child_chain
      (PlanNode.innerNode (PlanNode.sortNode PlanNode.leafNode) [])).1.mpr rfl
  · exact (c8_validate_first_child_chain PlanNode.leafNode).2 rfl

/-- C1 counterexample: one sort-key column, `Descending` with
`NullsFirst`; the left row is null in that column and the right row is
not.  The claim requires the null side to compare `lesser` regardless of
direction, but `rowCompare` swaps the operands before the null checks and
returns `greater`. -/
theorem c1_counterexample :
    rowCompare [⟨0, SortOrder.descending, NullOrdering.nullsFirst⟩]
        [none] [some 0] = (RowCmp.greater, none) ∧
    rowCompare [⟨0, SortOrder.descending, NullOrdering.nullsFirst⟩]
        [none] [some 0] ≠ (RowCmp.lesser, none) := by
  constructor
  · rfl
  · decide

/-- C1 amended: on the first sort-key column with a null on the left and
a non-null on the right under `NullsFirst`, the null side compares
`lesser` only when the column is ascending; a descending column reverses
the whole column contribution, null placement included, so the null side
compares `greater`. -/
theorem c1_amended_null_direction (sf : SortField) (rest : List SortField)
    (l r : Row) (v : Int)
    (hl : sf.col < l.length) (hr : sf.col < r.length)
    (hvl : keyVal sf l = none) (hvr : keyVal sf r = some v)
    (hnf : sf.nullOrdering = NullOrdering.nullsFirst) :
    rowCompare (sf :: rest) l r =
      (if sf.order = SortOrder.ascending then RowCmp.lesser else RowCmp.greater,
       none) := by
  rw [rowCompare_cons sf rest l r hl hr, hvl, hvr, colKey_lex]
  cases ho : sf.order <;> simp [ho, hnf, rcOfInt] <;> norm_num

/-- Witness for C1 amended: the ascending variant yields `lesser`, the
descending variant `greater`, at the concrete rows `[null]` and `[5]`. -/
theorem c1_amended_witness :
    rowCompare [⟨0, SortOrder.ascending, NullOrdering.nullsFirst⟩]
        [none] [some 5] = (RowCmp.lesser, none) ∧
    rowCompare [⟨0, SortOrder.descending, NullOrdering.nullsFirst⟩]
        [none] [some 5] = (RowCmp.greater, none) := by
  constructor
  · have h := c1_amended_null_direction
      ⟨0, SortOrder.ascending, NullOrdering.nullsFirst⟩ [] [none] [some 5] 5
      (by decide) (by decide) rfl rfl rfl
    simpa using h
  · have h := c1_amended_null_direction
      ⟨0, SortOrder.descending, NullOrdering.nullsFirst⟩ [] [none] [some 5] 5
      (by decide) (by decide) rfl rfl rfl
    simpa using h

theorem rowEquals_nil_right {schLen : Nat} {f : Row} (hne : f ≠ []) :
    rowEquals schLen f [] = false := by
  unfold rowEquals
  rw [if_pos]
  left
  simp
  exact fun h => hne (List.length_eq_zero.mp h.symm)

/-- C6: when the from side holds an extra row whose comparison key is
strictly smaller (`lesser`, error-free) than every row on the to side,
the very next `NextDiff` call returns that from-row paired with the
absent marker (`nil` to-row), and no row beyond that one is consumed from
either queue. -/
theorem c6_extra_from_row (sfs : List SortField) (schLen : Nat)
    (s : DifferState) (f : Row) (fs : List Row) (fuel : Nat)
    (hf : s.fromRows = f :: fs) (htne : s.toRows ≠ [])
    (hl : s.lastCmp = RowCmp.unknown)
    (hless : ∀ t2 ∈ s.toRows, rowCompare sfs f t2 = (RowCmp.lesser, none))
    (hne : f ≠ []) :
    nextDiff sfs schLen s (fuel + 1) =
      (DiffOutcome.pair (some f) none, { s with fromRows := fs }) := by
  cases ht : s.toRows with
  | nil => exact absurd ht htne
  | cons t ts =>
    have hcmp : rowCompare sfs f t = (RowCmp.lesser, none) :=
      hless t (by rw [ht]; exact List.mem_cons_self t ts)
    have hNF : nextFromRow sfs s =
        (StepResult.row f, { s with fromRows := fs, lastCmp := RowCmp.lesser }) := by
      simp [nextFromRow, hf, ht, hl, hcmp]
    have hNT : nextToRow { s with fromRows := fs, lastCmp := RowCmp.lesser } =
        (StepResult.skip, { s with fromRows := fs, lastCmp := RowCmp.unknown }) := by
      simp [nextToRow, ht]
    rw [show fuel + 1 = fuel + 1 from rfl]
    unfold nextDiff nextDiffAux
    rw [hNF]
    simp only [hNT]
    simp [rowEqualsOpt, rowEquals_nil_right hne, hl]
    exact ht

/-- Witness for C6: from = `[[0],[7]]`, to = `[[5]]` on one ascending
column; the first `NextDiff` call reports `[0]` removed. -/
theorem c6_witness :
    nextDiff [⟨0, SortOrder.ascending, NullOrdering.nullsFirst⟩] 1
        ⟨[[some 0], [some 7]], [[some 5]], RowCmp.unknown⟩ 3 =
      (DiffOutcome.pair (some [some 0]) none,
       ⟨[[some 7]], [[some 5]], RowCmp.unknown⟩) := by
  have h := c6_extra_from_row [⟨0, SortOrder.ascending, NullOrdering.nullsFirst⟩]
    1 ⟨[[some 0], [some 7]], [[some 5]], RowCmp.unknown⟩ [some 0] [[some 7]] 2
    rfl (by decide) rfl (by decide) (by decide)
  exact h

theorem rowCompare_self {sfs : List SortField} {r : Row}
    (hin : ∀ sf ∈ sfs, sf.col < r.length) :
    rowCompare sfs r r = (RowCmp.equal, none) := by
  rw [rowCompare_eq_key sfs r r hin hin, lexCmp_self, rcOfInt_zero]

theorem rowEquals_self {schLen : Nat} {r : Row} (h : r.length = schLen) :
    rowEquals schLen r r = true := by
  simp [rowEquals, h]

/-- C3: on record-for-record identical streams (rows of schema length,
sort columns in range) `NextDiff` never surfaces a pair: the single call
consumes both streams, discarding every (equal) pulled pair, and returns
the end-of-stream outcome with both queues exhausted; every later call
then also returns end-of-stream. -/
theorem c3_identical_streams (sfs : List SortField) (schLen : Nat) :
    ∀ (fuel : Nat) (rs : List Row),
    rs.length < fuel →
    (∀ r ∈ rs, r.length = schLen) →
    (∀ r ∈ rs, ∀ sf ∈ sfs, sf.col < r.length) →
    nextDiff sfs schLen ⟨rs, rs, RowCmp.unknown⟩ fuel =
      (DiffOutcome.eof, ⟨[], [], RowCmp.unknown⟩) := by
  intro fuel
  induction fuel with
  | zero => intro rs h _ _; omega
  | succ fuel ih =>
    intro rs hfuel hlen hin
    cases rs with
    | nil =>
      unfold nextDiff nextDiffAux
      simp [nextFromRow, nextToRow]
    | cons r rs2 =>
      have hin0 : ∀ sf ∈ sfs, sf.col < r.length :=
        fun sf hsf => hin r (List.mem_cons_self _ _) sf hsf
      have hcmp : rowCompare sfs r r = (RowCmp.equal, none) := rowCompare_self hin0
      have hNF : nextFromRow sfs ⟨r :: rs2, r :: rs2, RowCmp.unknown⟩ =
          (StepResult.row r, ⟨rs2, r :: rs2, RowCmp.equal⟩) := by
        simp [nextFromRow, hcmp]
      have hNT : nextToRow ⟨rs2, r :: rs2, RowCmp.equal⟩ =
          (StepResult.row r, ⟨rs2, rs2, RowCmp.unknown⟩) := by
        simp [nextToRow]
      have heq : rowEqualsOpt schLen (some r) (some r) = true := by
        simp only [rowEqualsOpt, Option.getD_some]
        exact rowEquals_self (hlen r (List.mem_cons_self _ _))
      unfold nextDiff nextDiffAux
      rw [hNF]
      simp only [hNT]
      simp [heq]
      have h2 : ∀ r2 ∈ rs2, r2.length = schLen :=
        fun r2 hr2 => hlen r2 (List.mem_cons_of_mem _ hr2)
      have h3 : ∀ r2 ∈ rs2, ∀ sf ∈ sfs, sf.col < r2.length :=
        fun r2 hr2 => hin r2 (List.mem_cons_of_mem _ hr2)
      simpa [nextDiff] using ih rs2 (by simp at hfuel; omega) h2 h3

/-- Witness for C3: identical two-row streams on one ascending column
yield only the end-of-stream outcome. -/
theorem c3_witness :
    nextDiff [⟨0, SortOrder.ascending, NullOrdering.nullsFirst⟩] 1
        ⟨[[some 1], [some 2]], [[some 1], [some 2]], RowCmp.unknown⟩ 3 =
      (DiffOutcome.eof, ⟨[], [], RowCmp.unknown⟩) := by
  exact c3_identical_streams [⟨0, SortOrder.ascending, NullOrdering.nullsFirst⟩]
    1 3 [[some 1], [some 2]] (by decide) (by decide) (by decide)

theorem fromsOf_nil : fromsOf [] = [] := rfl

theorem tosOf_nil : tosOf [] = [] := rfl

theorem fromsOf_cons_from (r : Row) (rest : List (Side × Row)) :
    fromsOf ((Side.fromSide, r) :: rest) = r :: fromsOf rest := by
  simp [fromsOf]

theorem fromsOf_cons_to (r : Row) (rest : List (Side × Row)) :
    fromsOf ((Side.toSide, r) :: rest) = fromsOf rest := by
  simp [fromsOf]

theorem tosOf_cons_from (r : Row) (rest : List (Side × Row)) :
    tosOf ((Side.fromSide, r) :: rest) = tosOf rest := by
  simp [tosOf]

theorem tosOf_cons_to (r : Row) (rest : List (Side × Row)) :
    tosOf ((Side.toSide, r) :: rest) = r :: tosOf rest := by
  simp [tosOf]

theorem mem_froms_or_tos {trace : List (Side × Row)} {x : Row}
    (hx : x ∈ trace.map Prod.snd) : x ∈ fromsOf trace ∨ x ∈ tosOf trace := by
  induction trace with
  | nil => simp at hx
  | cons e rest ih =>
    obtain ⟨side, r⟩ := e
    simp only [List.map_cons, List.mem_cons] at hx
    cases side with
    | fromSide =>
      rw [fromsOf_cons_from, tosOf_cons_from]
      rcases hx with hx | hx
      · exact Or.inl (by simp [hx])
      · rcases ih hx with h | h
        · exact Or.inl (List.mem_cons_of_mem _ h)
        · exact Or.inr h
    | toSide =>
      rw [fromsOf_cons_to, tosOf_cons_to]
      rcases hx with hx | hx
      · exact Or.inr (by simp [hx])
      · rcases ih hx with h | h
        · exact Or.inl h
        · exact Or.inr (List.mem_cons_of_mem _ h)

theorem keyLE_refl (sfs : List SortField) (a : Row) : keyLE sfs a a := by
  unfold keyLE
  rw [lexCmp_self]

theorem keyLE_trans {sfs : List SortField} {a b c : Row}
    (hab : keyLE sfs a b) (hbc : keyLE sfs b c) : keyLE sfs a c :=
  lexCmp_trans (by rw [key_length, key_length]) (by rw [key_length, key_length])
    hab hbc

theorem rcOfInt_eq_lesser {x : Int} : rcOfInt x = RowCmp.lesser ↔ x < 0 := by
  unfold rcOfInt
  split_ifs <;> simp <;> omega

theorem rcOfInt_eq_equal {x : Int} : rcOfInt x = RowCmp.equal ↔ x = 0 := by
  unfold rcOfInt
  split_ifs <;> simp <;> omega

theorem rcOfInt_eq_greater {x : Int} : rcOfInt x = RowCmp.greater ↔ 0 < x := by
  unfold rcOfInt
  split_ifs <;> simp <;> omega

/-- C2: for finite streams both sorted by the same sort-key spec (with all
sort columns evaluable on every row), the full alternating
`nextFromRow`/`nextToRow` call sequence, driven to double end-of-stream,
finishes, pops every row of both streams exactly once (each side's pops
are exactly that side's stream, in order), and the merged pop sequence is
ascending in the effective comparison-key order. -/
theorem c2_merge_visits_all_in_order (sfs : List SortField) :
    ∀ (fuel : Nat) (s : DifferState),
    s.fromRows.length + s.toRows.length < fuel →
    s.lastCmp = RowCmp.unknown →
    (∀ r, (r ∈ s.fromRows ∨ r ∈ s.toRows) → ∀ sf ∈ sfs, sf.col < r.length) →
    List.Pairwise (keyLE sfs) s.fromRows →
    List.Pairwise (keyLE sfs) s.toRows →
    (runDiffer sfs fuel s).2.2 = RunOutcome.finished ∧
    fromsOf (runDiffer sfs fuel s).1 = s.fromRows ∧
    tosOf (runDiffer sfs fuel s).1 = s.toRows ∧
    List.Pairwise (keyLE sfs) ((runDiffer sfs fuel s).1.map Prod.snd) := by
  intro fuel
  induction fuel with
  | zero => intro s h _ _ _ _; omega
  | succ fuel ih =>
    intro s hfuel hlast hin hpf hpt
    cases hf : s.fromRows with
    | nil =>
      cases ht : s.toRows with
      | nil =>
        have hNF : nextFromRow sfs s = (StepResult.eof, s) := by
          simp [nextFromRow, hf]
        have hNT : nextToRow s = (StepResult.eof, s) := by
          simp [nextToRow, ht]
        have hrun : runDiffer sfs (fuel + 1) s = ([], s, RunOutcome.finished) := by
          simp [runDiffer, hNF, hNT]
        rw [hrun]
        simp [fromsOf_nil, tosOf_nil]
      | cons t ts =>
        have hNF : nextFromRow sfs s = (StepResult.eof, s) := by
          simp [nextFromRow, hf]
        have hNT : nextToRow s =
            (StepResult.row t, ⟨s.fromRows, ts, s.lastCmp⟩) := by
          simp [nextToRow, ht, hf, hlast]
        have hrun : runDiffer sfs (fuel + 1) s =
            ((Side.toSide, t) ::
              (runDiffer sfs fuel ⟨s.fromRows, ts, s.lastCmp⟩).1,
             (runDiffer sfs fuel ⟨s.fromRows, ts, s.lastCmp⟩).2.1,
             (runDiffer sfs fuel ⟨s.fromRows, ts, s.lastCmp⟩).2.2) := by
          simp [runDiffer, hNF, hNT]
        have hlen2 : s.fromRows.length + ts.length < fuel := by
          rw [ht] at hfuel
          simp at hfuel
          omega
        have hin2 : ∀ r, (r ∈ s.fromRows ∨ r ∈ ts) → ∀ sf ∈ sfs,
            sf.col < r.length := by
          intro r hr
          refine hin r ?_
          rcases hr with h | h
          · exact Or.inl h
          · right
            rw [ht]
            exact List.mem_cons_of_mem _ h
        have hpt2 : List.Pairwise (keyLE sfs) (t :: ts) := ht ▸ hpt
        obtain ⟨ho, hfr, htr, hp⟩ := ih ⟨s.fromRows, ts, s.lastCmp⟩
          hlen2 hlast hin2 hpf (List.pairwise_cons.mp hpt2).2
        have hfr2 : fromsOf (runDiffer sfs fuel ⟨s.fromRows, ts, s.lastCmp⟩).1 =
            s.fromRows := hfr
        have htr2 : tosOf (runDiffer sfs fuel ⟨s.fromRows, ts, s.lastCmp⟩).1 =
            ts := htr
        rw [hrun]
        refine ⟨ho, ?_, ?_, ?_⟩
        · rw [fromsOf_cons_to, hfr2, hf]
        · rw [tosOf_cons_to, htr2]
        · simp only [List.map_cons]
          rw [List.pairwise_cons]
          refine ⟨?_, hp⟩
          intro x hx
          rcases mem_froms_or_tos hx with hxm | hxm
          · rw [hfr2, hf] at hxm
            simp at hxm
          · rw [htr2] at hxm
            exact (List.pairwise_cons.mp hpt2).1 x hxm
    | cons f fs =>
      cases ht : s.toRows with
      | nil =>
        have hNF : nextFromRow sfs s =
            (StepResult.row f, ⟨fs, s.toRows, s.lastCmp⟩) := by
          simp [nextFromRow, hf, ht]
        have hNT : nextToRow ⟨fs, s.toRows, s.lastCmp⟩ =
            (StepResult.eof, ⟨fs, s.toRows, s.lastCmp⟩) := by
          simp [nextToRow, ht]
        have hrun : runDiffer sfs (fuel + 1) s =
            ((Side.fromSide, f) ::
              (runDiffer sfs fuel ⟨fs, s.toRows, s.lastCmp⟩).1,
             (runDiffer sfs fuel ⟨fs, s.toRows, s.lastCmp⟩).2.1,
             (runDiffer sfs fuel ⟨fs, s.toRows, s.lastCmp⟩).2.2) := by
          simp [runDiffer, hNF, hNT]
        have hlen2 : fs.length + s.toRows.length < fuel := by
          rw [hf] at hfuel
          simp at hfuel
          omega
        have hin2 : ∀ r, (r ∈ fs ∨ r ∈ s.toRows) → ∀ sf ∈ sfs,
            sf.col < r.length := by
          intro r hr
          refine hin r ?_
          rcases hr with h | h
          · left
            rw [hf]
            exact List.mem_cons_of_mem _ h
          · exact Or.inr h
        have hpf2 : List.Pairwise (keyLE sfs) (f :: fs) := hf ▸ hpf
        obtain ⟨ho, hfr, htr, hp⟩ := ih ⟨fs, s.toRows, s.lastCmp⟩
          hlen2 hlast hin2 (List.pairwise_cons.mp hpf2).2 hpt
        have hfr2 : fromsOf (runDiffer sfs fuel ⟨fs, s.toRows, s.lastCmp⟩).1 =
            fs := hfr
        have htr2 : tosOf (runDiffer sfs fuel ⟨fs, s.toRows, s.lastCmp⟩).1 =
            s.toRows := htr
        rw [hrun]
        refine ⟨ho, ?_, ?_, ?_⟩
        · rw [fromsOf_cons_from, hfr2]
        · rw [tosOf_cons_from, htr2, ht]
        · simp only [List.map_cons]
          rw [List.pairwise_cons]
          refine ⟨?_, hp⟩
          intro x hx
          rcases mem_froms_or_tos hx with hxm | hxm
          · rw [hfr2] at hxm
            exact (List.pairwise_cons.mp hpf2).1 x hxm
          · rw [htr2, ht] at hxm
            simp at hxm
      | cons t ts =>
        have hmf : f ∈ s.fromRows := by
          rw [hf]
          exact List.mem_cons_self _ _
        have hmt : t ∈ s.toRows := by
          rw [ht]
          exact List.mem_cons_self _ _
        have hinf : ∀ sf ∈ sfs, sf.col < f.length := hin f (Or.inl hmf)
        have hint : ∀ sf ∈ sfs, sf.col < t.length := hin t (Or.inr hmt)
        have hcmp := rowCompare_eq_key sfs f t hinf hint
        have hpf2 : List.Pairwise (keyLE sfs) (f :: fs) := hf ▸ hpf
        have hpt2 : List.Pairwise (keyLE sfs) (t :: ts) := ht ▸ hpt
        rcases lt_trichotomy (lexCmp (key sfs f) (key sfs t)) 0 with hlt | heq0 | hgt
        · have hc : rowCompare sfs f t = (RowCmp.lesser, none) := by
            rw [hcmp, rcOfInt_eq_lesser.mpr hlt]
          have hNF : nextFromRow sfs s =
              (StepResult.row f, ⟨fs, s.toRows, RowCmp.lesser⟩) := by
            simp [nextFromRow, hf, ht, hlast, hc]
          have hNT : nextToRow ⟨fs, s.toRows, RowCmp.lesser⟩ =
              (StepResult.skip, ⟨fs, s.toRows, RowCmp.unknown⟩) := by
            simp [nextToRow, ht]
          have hrun : runDiffer sfs (fuel + 1) s =
              ((Side.fromSide, f) ::
                (runDiffer sfs fuel ⟨fs, s.toRows, RowCmp.unknown⟩).1,
               (runDiffer sfs fuel ⟨fs, s.toRows, RowCmp.unknown⟩).2.1,
               (runDiffer sfs fuel ⟨fs, s.toRows, RowCmp.unknown⟩).2.2) := by
            simp [runDiffer, hNF, hNT]
          have hlen2 : fs.length + s.toRows.length < fuel := by
            rw [hf] at hfuel
            simp at hfuel
            omega
          have hin2 : ∀ r, (r ∈ fs ∨ r ∈ s.toRows) → ∀ sf ∈ sfs,
              sf.col < r.length := by
            intro r hr
            refine hin r ?_
            rcases hr with h | h
            · left
              rw [hf]
              exact List.mem_cons_of_mem _ h
            · exact Or.inr h
          obtain ⟨ho, hfr, htr, hp⟩ := ih ⟨fs, s.toRows, RowCmp.unknown⟩
            hlen2 rfl hin2 (List.pairwise_cons.mp hpf2).2 hpt
          have hfr2 : fromsOf (runDiffer sfs fuel ⟨fs, s.toRows, RowCmp.unknown⟩).1 =
              fs := hfr
          have htr2 : tosOf (runDiffer sfs fuel ⟨fs, s.toRows, RowCmp.unknown⟩).1 =
              s.toRows := htr
          rw [hrun]
          refine ⟨ho, ?_, ?_, ?_⟩
          · rw [fromsOf_cons_from, hfr2]
          · rw [tosOf_cons_from, htr2, ht]
          · simp only [List.map_cons]
            rw [List.pairwise_cons]
            refine ⟨?_, hp⟩
            intro x hx
            have hft : keyLE sfs f t := le_of_lt hlt
            rcases mem_froms_or_tos hx with hxm | hxm
            · rw [hfr2] at hxm
              exact (List.pairwise_cons.mp hpf2).1 x hxm
            · rw [htr2, ht] at hxm
              rcases List.mem_cons.mp hxm with hxe | hxts
              · rw [hxe]
                exact hft
              · exact keyLE_trans hft ((List.pairwise_cons.mp hpt2).1 x hxts)
        · have hkeys : key sfs f = key sfs t :=
            lexCmp_eq_zero (by rw [key_length, key_length]) heq0
          have hc : rowCompare sfs f t = (RowCmp.equal, none) := by
            rw [hcmp, rcOfInt_eq_equal.mpr heq0]
          have hNF : nextFromRow sfs s =
              (StepResult.row f, ⟨fs, s.toRows, RowCmp.equal⟩) := by
            simp [nextFromRow, hf, ht, hlast, hc]
          have hNT : nextToRow ⟨fs, s.toRows, RowCmp.equal⟩ =
              (StepResult.row t, ⟨fs, ts, RowCmp.unknown⟩) := by
            simp [nextToRow, ht]
          have hrun : runDiffer sfs (fuel + 1) s =
              ((Side.fromSide, f) :: (Side.toSide, t) ::
                (runDiffer sfs fuel ⟨fs, ts, RowCmp.unknown⟩).1,
               (runDiffer sfs fuel ⟨fs, ts, RowCmp.unknown⟩).2.1,
               (runDiffer sfs fuel ⟨fs, ts, RowCmp.unknown⟩).2.2) := by
            simp [runDiffer, hNF, hNT]
          have hlen2 : fs.length + ts.length < fuel := by
            rw [hf, ht] at hfuel
            simp at hfuel
            omega
          have hin2 : ∀ r, (r ∈ fs ∨ r ∈ ts) → ∀ sf ∈ sfs,
              sf.col < r.length := by
            intro r hr
            refine hin r ?_
            rcases hr with h | h
            · left
              rw [hf]
              exact List.mem_cons_of_mem _ h
            · right
              rw [ht]
              exact List.mem_cons_of_mem _ h
          obtain ⟨ho, hfr, htr, hp⟩ := ih ⟨fs, ts, RowCmp.unknown⟩
            hlen2 rfl hin2 (List.pairwise_cons.mp hpf2).2
            (List.pairwise_cons.mp hpt2).2
          have hfr2 : fromsOf (runDiffer sfs fuel ⟨fs, ts, RowCmp.unknown⟩).1 =
              fs := hfr
          have htr2 : tosOf (runDiffer sfs fuel ⟨fs, ts, RowCmp.unknown⟩).1 =
              ts := htr
          have hft : keyLE sfs f t := le_of_eq heq0
          have hrestf : ∀ x, x ∈ fs → keyLE sfs f x :=
            fun x hx => (List.pairwise_cons.mp hpf2).1 x hx
          have hrestt : ∀ x, x ∈ ts → keyLE sfs t x :=
            fun x hx => (List.pairwise_cons.mp hpt2).1 x hx
          rw [hrun]
          refine ⟨ho, ?_, ?_, ?_⟩
          · rw [fromsOf_cons_from, fromsOf_cons_to, hfr2]
          · rw [tosOf_cons_from, tosOf_cons_to, htr2]
          · simp only [List.map_cons]
            rw [List.pairwise_cons]
            constructor
            · intro x hx
              rcases List.mem_cons.mp hx with hxe | hxr
              · rw [hxe]
                exact hft
              · rcases mem_froms_or_tos hxr with hxm | hxm
                · rw [hfr2] at hxm
                  exact hrestf x hxm
                · rw [htr2] at hxm
                  exact keyLE_trans hft (hrestt x hxm)
            · rw [List.pairwise_cons]
              constructor
              · intro x hx
                rcases mem_froms_or_tos hx with hxm | hxm
                · rw [hfr2] at hxm
                  unfold keyLE
                  rw [← hkeys]
                  exact hrestf x hxm
                · rw [htr2] at hxm
                  exact hrestt x hxm
              · exact hp
        · have hc : rowCompare sfs f t = (RowCmp.greater, none) := by
            rw [hcmp, rcOfInt_eq_greater.mpr hgt]
          have hNF : nextFromRow sfs s =
              (StepResult.skip, ⟨s.fromRows, s.toRows, RowCmp.greater⟩) := by
            simp [nextFromRow, hf, ht, hlast, hc]
          have hNT : nextToRow ⟨s.fromRows, s.toRows, RowCmp.greater⟩ =
              (StepResult.row t, ⟨s.fromRows, ts, RowCmp.unknown⟩) := by
            simp [nextToRow, ht]
          have hrun : runDiffer sfs (fuel + 1) s =
              ((Side.toSide, t) ::
                (runDiffer sfs fuel ⟨s.fromRows, ts, RowCmp.unknown⟩).1,
               (runDiffer sfs fuel ⟨s.fromRows, ts, RowCmp.unknown⟩).2.1,
               (runDiffer sfs fuel ⟨s.fromRows, ts, RowCmp.unknown⟩).2.2) := by
            simp [runDiffer, hNF, hNT]
          have hlen2 : s.fromRows.length + ts.length < fuel := by
            rw [ht] at hfuel
            simp at hfuel
            omega
          have hin2 : ∀ r, (r ∈ s.fromRows ∨ r ∈ ts) → ∀ sf ∈ sfs,
              sf.col < r.length := by
            intro r hr
            refine hin r ?_
            rcases hr with h | h
            · exact Or.inl h
            · right
              rw [ht]
              exact List.mem_cons_of_mem _ h
          obtain ⟨ho, hfr, htr, hp⟩ := ih ⟨s.fromRows, ts, RowCmp.unknown⟩
            hlen2 rfl hin2 hpf (List.pairwise_cons.mp hpt2).2
          have hfr2 : fromsOf (runDiffer sfs fuel ⟨s.fromRows, ts, RowCmp.unknown⟩).1 =
              s.fromRows := hfr
          have htr2 : tosOf (runDiffer sfs fuel ⟨s.fromRows, ts, RowCmp.unknown⟩).1 =
              ts := htr
          have htf : keyLE sfs t f := by
            unfold keyLE
            rw [lexCmp_swap]
            omega
          rw [hrun]
          refine ⟨ho, ?_, ?_, ?_⟩
          · rw [fromsOf_cons_to, hfr2, hf]
          · rw [tosOf_cons_to, htr2]
          · simp only [List.map_cons]
            rw [List.pairwise_cons]
            refine ⟨?_, hp⟩
            intro x hx
            rcases mem_froms_or_tos hx with hxm | hxm
            · rw [hfr2, hf] at hxm
              rcases List.mem_cons.mp hxm with hxe | hxfs
              · rw [hxe]
                exact htf
              · exact keyLE_trans htf ((List.pairwise_cons.mp hpf2).1 x hxfs)
            · rw [htr2] at hxm
              exact (List.pairwise_cons.mp hpt2).1 x hxm

/-- Witness for C2: the spec's worked example — from keys `1,2,3`, to keys
`1,2,4` on one ascending column; the run finishes having popped both
streams exactly once, in ascending key order. -/
theorem c2_witness :
    (runDiffer [⟨0, SortOrder.ascending, NullOrdering.nullsFirst⟩] 7
        ⟨[[some 1], [some 2], [some 3]], [[some 1], [some 2], [some 4]],
         RowCmp.unknown⟩).2.2 = RunOutcome.finished ∧
    fromsOf (runDiffer [⟨0, SortOrder.ascending, NullOrdering.nullsFirst⟩] 7
        ⟨[[some 1], [some 2], [some 3]], [[some 1], [some 2], [some 4]],
         RowCmp.unknown⟩).1 = [[some 1], [some 2], [some 3]] ∧
    tosOf (runDiffer [⟨0, SortOrder.ascending, NullOrdering.nullsFirst⟩] 7
        ⟨[[some 1], [some 2], [some 3]], [[some 1], [some 2], [some 4]],
         RowCmp.unknown⟩).1 = [[some 1], [some 2], [some 4]] := by
  have h := c2_merge_visits_all_in_order
    [⟨0, SortOrder.ascending, NullOrdering.nullsFirst⟩] 7
    ⟨[[some 1], [some 2], [some 3]], [[some 1], [some 2], [some 4]],
     RowCmp.unknown⟩
    (by decide) rfl
    (by
      intro r hr sf hsf
      simp only [List.mem_singleton] at hsf
      subst hsf
      simp only [] at hr
      rcases hr with h | h <;> simp at h <;>
        rcases h with h | h | h <;> subst h <;> decide)
    (by decide)
    (by decide)
  exact ⟨h.1, h.2.1, h.2.2.1⟩
